import Mathlib

/-!
Shallow embedding of the JSON parser and value representation of
src/pulse/json.c (PulseAudio), together with theorems settling the frozen
claims about it.  The C cursor (a pointer into a NUL-terminated character
buffer) is modelled as a `List Char` holding the characters that remain
before the terminating NUL; reading past the end of the list yields the NUL
character.  C `unsigned int` accumulation is modelled as `Nat` reduced
modulo 2^32 at each step, C `double` values as exact rationals.
-/

namespace PulseJson

/-- One node of the parsed JSON tree: the discriminated union from
`struct pa_json_object`.  The union payloads become constructor arguments;
the `double` payload is modelled as an exact rational; the `pa_hashmap`
payload of an object is modelled as the sequence of `pa_hashmap_put`
insertions in program order; the `pa_idxset` payload of an array as the list
of elements in append order.  `vInit` is the zero discriminant
PA_JSON_TYPE_INIT of a freshly allocated node. -/
inductive PaJson where
  | vInit : PaJson
  | vNull : PaJson
  | vBool : Bool → PaJson
  | vInt : Int → PaJson
  | vDouble : Rat → PaJson
  | vString : List Char → PaJson
  | vObject : List (List Char × PaJson) → PaJson
  | vArray : List PaJson → PaJson

/-- The discriminant enumeration `pa_json_type` (declared in pulse/json.h). -/
inductive pa_json_type where
  | INIT | NULL | INT | DOUBLE | BOOL | STRING | ARRAY | OBJECT
deriving DecidableEq

/-- JSON_OBJECT_TYPE / pa_json_object_get_type: the discriminant of a node. -/
def pa_json_object_get_type : PaJson → pa_json_type
  | .vInit => .INIT
  | .vNull => .NULL
  | .vBool _ => .BOOL
  | .vInt _ => .INT
  | .vDouble _ => .DOUBLE
  | .vString _ => .STRING
  | .vObject _ => .OBJECT
  | .vArray _ => .ARRAY

/-- Reading the current character `*str`: past the end of the remaining
character list the parser sees the terminating NUL byte. -/
def peek : List Char → Char
  | [] => '\x00'
  | c :: _ => c

/-- Advancing the cursor (`str++`).  The parser only ever advances after
reading a character it accepted, never past a NUL it has seen, so staying at
the empty list is unreachable in runs the C code performs. -/
def adv : List Char → List Char
  | [] => []
  | _ :: rest => rest

/-- is_whitespace from json.c: exactly tab, newline, carriage return, space. -/
def is_whitespace (c : Char) : Bool :=
  c = '\t' || c = '\n' || c = '\r' || c = ' '

/-- is_digit from json.c. -/
def is_digit (c : Char) : Bool :=
  '0' ≤ c && c ≤ '9'

/-- is_end from json.c: with no terminator set (NULL), only the terminating
NUL ends a value; otherwise any character of the terminator string does. -/
def is_end (c : Char) (e : Option (List Char)) : Bool :=
  match e with
  | none => c = '\x00'
  | some chars => chars.contains c

/-- consume_string from json.c: match the expected literal character by
character, returning the cursor after it, or NULL (none) on any mismatch
(a NUL in the input mismatches every expected character). -/
def consume_string : List Char → List Char → Option (List Char)
  | s, [] => some s
  | s, e :: es => if peek s = e then consume_string (adv s) es else none

/-- parse_null from json.c: exact match of the literal `null`. -/
def parse_null (s : List Char) : Option (List Char × PaJson) :=
  match consume_string s ['n', 'u', 'l', 'l'] with
  | some s1 => some (s1, .vNull)
  | none => none

/-- parse_boolean from json.c: `true`, else `false`.  (The C code's inner
`if (str)` test is always true and on the failure path only mutates the
node that parse_value immediately discards, so it is unobservable.) -/
def parse_boolean (s : List Char) : Option (List Char × PaJson) :=
  match consume_string s ['t', 'r', 'u', 'e'] with
  | some s1 => some (s1, .vBool true)
  | none =>
    match consume_string s ['f', 'a', 'l', 's', 'e'] with
    | some s1 => some (s1, .vBool false)
    | none => none

/-- The body of parse_string's while loop: accumulate decoded characters
until the closing quote.  The empty-list case is the cursor at the
terminating NUL, which fails the printable-ASCII check in the C code (an
unterminated string).  A signed `char` outside printable ASCII compares
below 0x20 or above 0x7E exactly when its byte value does, so the byte-range
test is faithful. -/
def parse_string_body : List Char → List Char → Option (List Char × List Char)
  | [], _ => none
  | c :: rest, acc =>
    if c = '"' then some (rest, acc.reverse)
    else if c ≠ '\\' then
      if c.toNat < 32 || 126 < c.toNat then none
      else parse_string_body rest (c :: acc)
    else
      match rest with
      | [] => none
      | e :: rest2 =>
        if e = '"' ∨ e = '\\' ∨ e = '/' then parse_string_body rest2 (e :: acc)
        else if e = 'b' then parse_string_body rest2 ('\x08' :: acc)
        else if e = 'f' then parse_string_body rest2 ('\x0C' :: acc)
        else if e = 'n' then parse_string_body rest2 ('\x0A' :: acc)
        else if e = 'r' then parse_string_body rest2 ('\x0D' :: acc)
        else if e = 't' then parse_string_body rest2 ('\x09' :: acc)
        else none

/-- parse_string from json.c: consume the leading quote, then run the
accumulation loop; on success the node becomes a String holding the decoded
buffer. -/
def parse_string (s : List Char) : Option (List Char × PaJson) :=
  match parse_string_body (adv s) [] with
  | some (rest, cs) => some (rest, .vString cs)
  | none => none

/-- Modulus of the C `unsigned int` accumulators of parse_number. -/
def UINT_LIMIT : Nat := 4294967296

/-- The integer-part digit loop of parse_number:
`integer = (integer * 10) + (*str - '0')` in `unsigned int` arithmetic. -/
def int_digits : List Char → Nat → List Char × Nat
  | [], acc => ([], acc)
  | c :: rest, acc =>
    if is_digit c then int_digits rest ((acc * 10 + (c.toNat - 48)) % UINT_LIMIT)
    else (c :: rest, acc)

/-- The fraction digit loop of parse_number: accumulates the fraction value
and counts fraction digits, both in `unsigned int` arithmetic. -/
def frac_digits : List Char → Nat → Nat → List Char × Nat × Nat
  | [], f, fd => ([], f, fd)
  | c :: rest, f, fd =>
    if is_digit c then
      frac_digits rest ((f * 10 + (c.toNat - 48)) % UINT_LIMIT) ((fd + 1) % UINT_LIMIT)
    else (c :: rest, f, fd)

/-- The exponent digit loop of parse_number.  The accumulator is a C `int`;
signed overflow would be undefined behaviour, so it is modelled as exact
integer arithmetic. -/
def exp_digits : List Char → Int → List Char × Int
  | [], e => ([], e)
  | c :: rest, e =>
    if is_digit c then exp_digits rest (e * 10 + (c.toNat - 48))
    else (c :: rest, e)

/-- Conversion of the `unsigned int` result to the `int` field int_value
(implementation-defined in C above INT_MAX; modelled as the universal
two's-complement wraparound). -/
def uintToInt (n : Nat) : Int :=
  if n < 2147483648 then (n : Int) else (n : Int) - (UINT_LIMIT : Int)

/-- `obj->int_value = (negative ? -1 : 1) * integer`: the multiplication is
performed in `unsigned int` arithmetic and the result converted to `int`. -/
def int_value_of (negative : Bool) (integer : Nat) : Int :=
  uintToInt (if negative then (UINT_LIMIT - integer) % UINT_LIMIT else integer)

/-- `obj->double_value = (negative ? -1.0 : 1.0) * (integer + (double)
fraction / pow(10, fraction_digits)) * pow(10, exponent)`, modelled in exact
rational arithmetic. -/
def double_value_of (negative : Bool) (integer fraction fraction_digits : Nat)
    (exponent : Int) : Rat :=
  (if negative then -1 else 1) *
    ((integer : Rat) + (fraction : Rat) / 10 ^ fraction_digits) * 10 ^ exponent

/-- The optional leading minus of parse_number: the negative flag and the
cursor after it. -/
def number_sign (s : List Char) : Bool × List Char :=
  if peek s = '-' then (true, adv s) else (false, s)

/-- The integer part of parse_number: a single leading `0` is consumed alone
(goto fraction), otherwise the (possibly empty) digit run is accumulated. -/
def number_integer (s : List Char) : List Char × Nat :=
  if peek s = '0' then (adv s, 0) else int_digits s 0

/-- The optional fraction of parse_number: present exactly when the next
character is a dot; yields (cursor, fraction, fraction_digits,
has_fraction). -/
def number_fraction (s : List Char) : List Char × Nat × Nat × Bool :=
  if peek s = '.' then
    match frac_digits (adv s) 0 0 with
    | (s1, f, fd) => (s1, f, fd, true)
  else (s, 0, 0, false)

/-- The optional exponent of parse_number: present exactly when the next
character is `e` or `E`; an optional sign, then a digit run; yields
(cursor, exponent, has_exponent). -/
def number_exponent (s : List Char) : List Char × Int × Bool :=
  if peek s = 'e' || peek s = 'E' then
    let t := adv s
    let q := if peek t = '-' then (true, adv t)
             else if peek t = '+' then (false, adv t)
             else (false, t)
    match exp_digits q.2 0 with
    | (s1, e) => (s1, if q.1 then -e else e, true)
  else (s, 0, false)

/-- parse_number from json.c.  It consumes an optional leading minus, either
a single leading `0` or a (possibly empty) digit run, an optional fraction
and an optional exponent, and always succeeds, producing an Int when neither
fraction nor exponent was present and a Double otherwise. -/
def parse_number (s : List Char) : List Char × PaJson :=
  match number_sign s with
  | (negative, s1) =>
    match number_integer s1 with
    | (s2, integer) =>
      match number_fraction s2 with
      | (s3, fraction, fraction_digits, has_fraction) =>
        match number_exponent s3 with
        | (s4, exponent, has_exponent) =>
          (s4,
            if has_fraction || has_exponent then
              .vDouble (double_value_of negative integer fraction fraction_digits exponent)
            else
              .vInt (int_value_of negative integer))

/-- The INIT phase of parse_value's loop: before each character the loop
condition `!is_end(*str, end)` is tested; whitespace is skipped; reaching a
terminator (or, with no terminator set, the NUL) while still in INIT leaves
the node's discriminant at PA_JSON_TYPE_INIT, which parse_value then rejects
(`none` here).  Otherwise the cursor stops at the dispatch character. -/
def init_skip : List Char → Option (List Char) → Option (List Char)
  | [], e => if is_end '\x00' e then none else some []
  | c :: rest, e =>
    if is_end c e then none
    else if is_whitespace c then init_skip rest e
    else some (c :: rest)

/-- The FINISH phase of parse_value's loop: after the production returned,
whitespace is consumed until the loop condition `is_end` stops the loop; any
other character is malformed trailing content (`goto error`). -/
def finish_phase : List Char → Option (List Char) → Option (List Char)
  | [], e => if is_end '\x00' e then some [] else none
  | c :: rest, e =>
    if is_end c e then some (c :: rest)
    else if is_whitespace c then finish_phase rest e
    else none

/-- The whitespace-chewing loop at the top of parse_array's body (the special
case that permits an empty array). -/
def skip_whitespace : List Char → List Char
  | [] => []
  | c :: rest => if is_whitespace c then skip_whitespace rest else c :: rest

mutual

/-- parse_value from json.c, with a fuel argument bounding the recursion
depth (pa_json_parse supplies input length + 1, which the per-call character
consumption makes sufficient).  INIT phase, then dispatch on the first
non-whitespace character to one of the six productions, then FINISH phase.
A production failure, a dispatch character matching no production, or a
terminator reached while still in INIT (discriminant still
PA_JSON_TYPE_INIT) all release the node and report failure.  The bodies of
parse_object and parse_array from json.c (run the member/element loop, then
mark the node Object/Array) are inlined into the two composite dispatch
branches so that each mutual call strictly decreases the fuel. -/
def parse_value : Nat → List Char → Option (List Char) → Option (List Char × PaJson)
  | 0, _, _ => none
  | fuel + 1, s, e =>
    match init_skip s e with
    | none => none
    | some s1 =>
      match
        (if peek s1 = 'n' then parse_null s1
         else if peek s1 = 't' || peek s1 = 'f' then parse_boolean s1
         else if peek s1 = '"' then parse_string s1
         else if is_digit (peek s1) || peek s1 = '-' then some (parse_number s1)
         else if peek s1 = '\x7b' then
           match parse_object_loop fuel s1 [] with
           | some (s2, members) => some (s2, PaJson.vObject members)
           | none => none
         else if peek s1 = '[' then
           match parse_array_loop fuel s1 [] with
           | some (s2, elems) => some (s2, PaJson.vArray elems)
           | none => none
         else none) with
      | none => none
      | some (s2, v) =>
        match finish_phase s2 e with
        | none => none
        | some s3 => some (s3, v)

/-- The `while (*str != '}')` loop of parse_object.  Each iteration consumes
the separating brace or comma, parses a key bounded by `:` and requires its
discriminant to be String, consumes the `:`, parses a value bounded by `,`
or the closing brace, and records the pa_hashmap_put of (copied key, value).
The trailing closing brace is consumed when the loop exits. -/
def parse_object_loop : Nat → List Char → List (List Char × PaJson) →
    Option (List Char × List (List Char × PaJson))
  | 0, _, _ => none
  | fuel + 1, s, acc =>
    if peek s = '\x7d' then some (adv s, acc)
    else
      match parse_value fuel (adv s) (some [':']) with
      | none => none
      | some (s1, name) =>
        match name with
        | .vString key =>
          match parse_value fuel (adv s1) (some [',', '\x7d']) with
          | none => none
          | some (s2, value) => parse_object_loop fuel s2 (acc ++ [(key, value)])
        | _ => none

/-- The `while (*str != ']')` loop of parse_array.  Each iteration consumes
the separating bracket or comma, chews whitespace (the special case allowing
an empty array), breaks on an immediate closing bracket, else parses an
element bounded by `,` or `]` and appends it (pa_idxset_put).  The closing
bracket is consumed on exit. -/
def parse_array_loop : Nat → List Char → List PaJson →
    Option (List Char × List PaJson)
  | 0, _, _ => none
  | fuel + 1, s, acc =>
    if peek s = ']' then some (adv s, acc)
    else
      let s1 := skip_whitespace (adv s)
      if peek s1 = ']' then some (adv s1, acc)
      else
        match parse_value fuel s1 (some [',', ']']) with
        | none => none
        | some (s2, v) => parse_array_loop fuel s2 (acc ++ [v])

end

/-- pa_json_parse from json.c: parse exactly one value with no terminator
set, then require the cursor to sit on the terminating NUL; any unconsumed
text is a parse failure.  The fuel input length + 1 strictly dominates the
nesting depth because every recursive call consumes at least one character
first. -/
def pa_json_parse (s : List Char) : Option PaJson :=
  match parse_value (s.length + 1) s none with
  | none => none
  | some (rest, o) => if peek rest = '\x00' then some o else none

/-- pa_json_object_get_int: requires the Int discriminant, returning the
defensive default 0 on mismatch (pa_return_val_if_fail). -/
def pa_json_object_get_int : PaJson → Int
  | .vInt n => n
  | _ => 0

/-- pa_json_object_get_double: default 0 on discriminant mismatch. -/
def pa_json_object_get_double : PaJson → Rat
  | .vDouble q => q
  | _ => 0

/-- pa_json_object_get_bool: default false on discriminant mismatch. -/
def pa_json_object_get_bool : PaJson → Bool
  | .vBool b => b
  | _ => false

/-- pa_json_object_get_string: the owned buffer, or NULL (none) on
discriminant mismatch. -/
def pa_json_object_get_string : PaJson → Option (List Char)
  | .vString cs => some cs
  | _ => none

/-- Modelled from the spec: pa_hashmap_get (pulsecore/hashmap.h, not under
src/) performs a "lookup by exact key match"; an absent key returns NULL.
On the collision-free member lists the claims below quantify over,
first-match lookup is independent of the map's unspecified duplicate-key
policy (spec section 9 leaves replace-vs-reject open). -/
def pa_hashmap_get (members : List (List Char × PaJson)) (name : List Char) :
    Option PaJson :=
  match members with
  | [] => none
  | (k, v) :: rest => if k = name then some v else pa_hashmap_get rest name

/-- pa_json_object_get_object_member: requires the Object discriminant, then
looks up the key; NULL (none) on mismatch or absence. -/
def pa_json_object_get_object_member (o : PaJson) (name : List Char) :
    Option PaJson :=
  match o with
  | .vObject members => pa_hashmap_get members name
  | _ => none

/-- Modelled from the spec: pa_idxset_size (pulsecore/idxset.h, not under
src/) on an idxset filled by appends in encounter order is the number of
elements. -/
def pa_idxset_size (xs : List PaJson) : Nat := xs.length

/-- pa_json_object_get_array_length: requires the Array discriminant,
returning 0 on mismatch. -/
def pa_json_object_get_array_length : PaJson → Nat
  | .vArray xs => pa_idxset_size xs
  | _ => 0

/-- Modelled from the spec: pa_idxset_get_by_index (pulsecore/idxset.h, not
under src/) is a bounds-checked positional lookup; out of range returns
NULL. -/
def pa_idxset_get_by_index (xs : List PaJson) (index : Nat) : Option PaJson :=
  xs.get? index

/-- pa_json_object_get_array_member: requires the Array discriminant, then a
bounds-checked positional lookup; NULL (none) on mismatch or out of range. -/
def pa_json_object_get_array_member (o : PaJson) (index : Nat) : Option PaJson :=
  match o with
  | .vArray xs => pa_idxset_get_by_index xs index
  | _ => none

/-- Modelled from the spec: the allocator pa_xnew0 (pulse/xmalloc.h) and the
reference-count macros PA_REFCNT_DECLARE / PA_REFCNT_DEC (pulsecore/refcnt.h)
are not under src/; per spec section 4.1, new_value() / json_object_new
yields a value whose reference count is 1.  (json_object_new itself contains
no explicit count initialisation; the count a fresh node carries is decided
by this missing allocator/macro code.) -/
def json_object_new_refcount : Int := 1

/-- Modelled from the spec: release decrements the reference count
(PA_REFCNT_DEC returns the decremented value, which pa_json_object_unref
compares against 0). -/
def PA_REFCNT_DEC (r : Int) : Int := r - 1

/-- Mathematical value of a digit run, most significant digit first (the
spec's "integer", "fraction" and exponent digit-run values). -/
def digitsToNat (ds : List Char) : Nat :=
  ds.foldl (fun a c => a * 10 + (c.toNat - 48)) 0

/-- digitsToNat generalised over a leading accumulator value (the state of
the C digit loops part-way through a run). -/
def digitsAcc (a : Nat) (ds : List Char) : Nat :=
  ds.foldl (fun x c => x * 10 + (c.toNat - 48)) a

/-- A number literal assembled from the spec's grammar pieces: optional
leading minus, integer-part digits, optional `.` plus fraction digits,
optional `e` plus optional minus plus exponent digits. -/
def numberLiteral (neg : Bool) (intD : List Char) (fracD : Option (List Char))
    (expD : Option (Bool × List Char)) : List Char :=
  (if neg then ['-'] else []) ++ intD ++
  (match fracD with
   | none => []
   | some ds => '.' :: ds) ++
  (match expD with
   | none => []
   | some (eneg, ds) => 'e' :: ((if eneg then ['-'] else []) ++ ds))

/-- The spec's fraction value for an optional fraction part. -/
def fracValOf : Option (List Char) → Nat
  | none => 0
  | some ds => digitsToNat ds

/-- The spec's fraction_digit_count for an optional fraction part. -/
def fracLenOf : Option (List Char) → Nat
  | none => 0
  | some ds => ds.length

/-- The spec's signed exponent value for an optional exponent part. -/
def expValOf : Option (Bool × List Char) → Int
  | none => 0
  | some (eneg, ds) => (if eneg then -1 else 1) * (digitsToNat ds : Int)

mutual
/-- A tree of reference-counted nodes as pa_json_object_unref sees it: each
node carries its current reference count and the child nodes a composite
holds (an Object's member values, an Array's elements).  Mutual with the
child list so that structural recursion and induction stay elementary. -/
inductive RcNode where
  | mk : Int → RcList → RcNode
/-- The list of child nodes a composite holds. -/
inductive RcList where
  | nil : RcList
  | cons : RcNode → RcList → RcList
end

mutual
/-- Number of nodes freed by one pa_json_object_unref call on the node: the
code returns immediately when the decremented count is still positive,
otherwise it recursively unrefs every child (pa_hashmap_free with the unref
free callback for Objects, pa_idxset_free with the unref callback for
Arrays) and then frees the node itself. -/
def freedBy : RcNode → Nat
  | .mk rc children => if PA_REFCNT_DEC rc > 0 then 0 else 1 + freedByList children
/-- Total nodes freed by unref-ing each node of a child list once. -/
def freedByList : RcList → Nat
  | .nil => 0
  | .cons c cs => freedBy c + freedByList cs
end

mutual
/-- Number of nodes in a reference-counted tree. -/
def nodeCount : RcNode → Nat
  | .mk _ children => 1 + nodeCountList children
/-- Number of nodes in a child list. -/
def nodeCountList : RcList → Nat
  | .nil => 0
  | .cons c cs => nodeCount c + nodeCountList cs
end

mutual
/-- Every node of the tree still carries exactly the reference count a node
freshly created by json_object_new has: json.c contains no PA_REFCNT_INC, so
a fully parsed tree whose root the parser just returned is in this state
(each child holds the single reference transferred at insertion). -/
def allFreshRc : RcNode → Bool
  | .mk rc children => rc = json_object_new_refcount && allFreshRcList children
/-- allFreshRc over a child list. -/
def allFreshRcList : RcList → Bool
  | .nil => true
  | .cons c cs => allFreshRc c && allFreshRcList cs
end

theorem ws_char_cases {c : Char} (h : is_whitespace c = true) :
    c = '\t' ∨ c = '\n' ∨ c = '\r' ∨ c = ' ' := by
  simp only [is_whitespace, Bool.or_eq_true, decide_eq_true_eq] at h
  tauto

theorem finish_phase_none_iff (s : List Char) (h : '\x00' ∉ s) :
    (∃ s3, finish_phase s none = some s3 ∧ peek s3 = '\x00') ↔
      s.all is_whitespace = true := by
  induction s with
  | nil =>
    constructor
    · intro _
      rfl
    · intro _
      exact ⟨[], rfl, rfl⟩
  | cons c rest ih =>
    have hc : c ≠ '\x00' := by
      intro hcc
      exact h (by simp [hcc])
    have hrest : '\x00' ∉ rest := fun hm => h (List.mem_cons_of_mem _ hm)
    have hend : is_end c none = false := by
      simp [is_end, hc]
    by_cases hws : is_whitespace c = true
    · simp [finish_phase, hend, hws, ih hrest]
    · simp [finish_phase, hend, hws]

/-- Claim C9: both "[]" and "[ ]" parse successfully to an Array value whose
get_array_length is 0, because parse_array chews whitespace right after the
opening bracket (or a comma) before looking for an element. -/
theorem empty_array_both_forms_parse :
    pa_json_parse "[]".toList = some (.vArray []) ∧
    pa_json_parse "[ ]".toList = some (.vArray []) ∧
    pa_json_object_get_array_length (.vArray []) = 0 :=
  ⟨rfl, rfl, rfl⟩

/-- Claim C3, counterexample: the claim asserts that a number literal with
no integer-part digit, such as the top-level input consisting only of the
character minus, is a parse failure; in fact pa_json_parse accepts it and
produces the Int 0 (the digit loop runs zero times and leaves the
accumulator at 0, and parse_number cannot fail). -/
theorem dash_alone_parses_as_int_zero :
    pa_json_parse ['-'] = some (.vInt 0) := rfl

/-- Claim C3, amended: the number production does not require any
integer-part digit: parse_number never fails (it always yields an Int or a
Double node), an empty integer-part digit run simply leaves the integer
accumulator at 0, and the top-level input consisting of only the character
minus parses successfully as the Int 0. -/
theorem number_production_never_fails :
    pa_json_parse ['-'] = some (.vInt 0) ∧
    (∀ s : List Char,
      (∃ rest n, parse_number s = (rest, .vInt n)) ∨
      (∃ rest q, parse_number s = (rest, .vDouble q))) := by
  refine ⟨rfl, ?_⟩
  intro s
  rcases h1 : number_sign s with ⟨negative, s1⟩
  rcases h2 : number_integer s1 with ⟨s2, integer⟩
  rcases h3 : number_fraction s2 with ⟨s3, fraction, fraction_digits, has_fraction⟩
  rcases h4 : number_exponent s3 with ⟨s4, exponent, has_exponent⟩
  have hp : parse_number s =
      (s4,
        if has_fraction || has_exponent then
          PaJson.vDouble (double_value_of negative integer fraction fraction_digits exponent)
        else PaJson.vInt (int_value_of negative integer)) := by
    simp only [parse_number.eq_def, h1, h2, h3, h4]
  cases hb : (has_fraction || has_exponent)
  · refine Or.inl ⟨s4, int_value_of negative integer, ?_⟩
    rw [hp, hb]
    simp
  · refine Or.inr ⟨s4, double_value_of negative integer fraction fraction_digits exponent, ?_⟩
    rw [hp, hb]
    simp

/-- Claim C7: the top-level entry point succeeds only when one value is
followed by nothing but whitespace up to the terminating NUL.  After a
production completes, the FINISH phase with no terminator set accepts the
remaining text exactly when it is all whitespace (first conjunct, for any
NUL-free remainder); concretely, trailing garbage "42 x" fails while
trailing whitespace "42   " succeeds. -/
theorem toplevel_trailing_text_rule :
    (∀ s2 : List Char, '\x00' ∉ s2 →
      ((∃ s3, finish_phase s2 none = some s3 ∧ peek s3 = '\x00') ↔
        s2.all is_whitespace = true)) ∧
    pa_json_parse "42 x".toList = none ∧
    pa_json_parse "42   ".toList = some (.vInt 42) :=
  ⟨finish_phase_none_iff, rfl, rfl⟩

/-- Witness for C7: at the concrete remainder consisting of one space, the
FINISH phase accepts and ends on the NUL. -/
theorem toplevel_trailing_text_rule_witness :
    ∃ s3, finish_phase [' '] none = some s3 ∧ peek s3 = '\x00' :=
  (toplevel_trailing_text_rule.1 [' '] (by decide)).mpr (by decide)

theorem init_skip_ws_colon (w l : List Char)
    (hw : ∀ c ∈ w, is_whitespace c = true) :
    init_skip (w ++ l) (some [':']) = init_skip l (some [':']) := by
  induction w with
  | nil => rfl
  | cons c cs ih =>
    have hc : is_whitespace c = true := hw c (by simp)
    have hend : is_end c (some [':']) = false := by
      rcases ws_char_cases hc with h | h | h | h <;> subst h <;> rfl
    simp only [List.cons_append, init_skip, hend, Bool.false_eq_true, if_false, hc, if_true]
    exact ih fun d hd => hw d (by simp [hd])

/-- Claim C10: the empty object literal, with or without interior
whitespace, is always a parse failure: parse_object's loop consumes the
opening brace and immediately demands a key value terminated by a colon, and
the closing brace can match no production, so no closing brace is ever
recognised before at least one member is parsed. -/
theorem empty_object_literal_always_fails (w : List Char)
    (hw : ∀ c ∈ w, is_whitespace c = true) :
    pa_json_parse ('\x7b' :: (w ++ ['\x7d'])) = none := by
  have hkey : ∀ fuel, parse_value (fuel + 1) (w ++ ['\x7d']) (some [':']) = none := by
    intro fuel
    have hi : init_skip (w ++ ['\x7d']) (some [':']) = some ['\x7d'] := by
      rw [init_skip_ws_colon w ['\x7d'] hw]
      rfl
    simp [parse_value, hi, peek, is_digit]
  have hloop : ∀ fuel,
      parse_object_loop (fuel + 2) ('\x7b' :: (w ++ ['\x7d'])) [] = none := by
    intro fuel
    simp [parse_object_loop, peek, adv, hkey fuel]
  have hval : ∀ fuel,
      parse_value (fuel + 3) ('\x7b' :: (w ++ ['\x7d'])) none = none := by
    intro fuel
    have hi : init_skip ('\x7b' :: (w ++ ['\x7d'])) none =
        some ('\x7b' :: (w ++ ['\x7d'])) := by
      simp [init_skip, is_end, is_whitespace, peek]
    simp [parse_value, hi, peek, is_digit, hloop fuel]
  have e3 : ('\x7b' :: (w ++ ['\x7d'])).length + 1 = w.length + 3 := by
    simp
  simp [pa_json_parse, e3, hval w.length]

/-- Witness for C10: the literal containing one interior space fails. -/
theorem empty_object_literal_always_fails_witness :
    pa_json_parse ('\x7b' :: ([' '] ++ ['\x7d'])) = none :=
  empty_object_literal_always_fails [' '] (by decide)

/-- Claim C6: every object key must parse to a value whose discriminant is
String.  Concretely the non-string key of the input rendered from the five
characters brace, 1, colon, 2, brace is rejected; in general, whenever the
key slot's parse_value either fails or yields a non-String discriminant, the
whole object member loop reports failure. -/
theorem object_key_must_be_string :
    pa_json_parse ['\x7b', '1', ':', '2', '\x7d'] = none ∧
    (∀ (fuel : Nat) (s : List Char) (acc : List (List Char × PaJson)),
      peek s ≠ '\x7d' →
      (match parse_value fuel (adv s) (some [':']) with
       | none => True
       | some (_, name) => pa_json_object_get_type name ≠ .STRING) →
      parse_object_loop (fuel + 1) s acc = none) := by
  refine ⟨rfl, ?_⟩
  intro fuel s acc hs hname
  rw [parse_object_loop]
  rw [if_neg (by simpa using hs)]
  rcases hpv : parse_value fuel (adv s) (some [':']) with - | ⟨s1, name⟩
  · rfl
  · rw [hpv] at hname
    cases name <;> simp_all [pa_json_object_get_type]

/-- Witness for C6: the member loop started on the concrete non-string-key
input fails (the key parses to an Int). -/
theorem object_key_must_be_string_witness :
    parse_object_loop 5 ['\x7b', '1', ':', '2', '\x7d'] [] = none := by
  have hpv : parse_value 4 (adv ['\x7b', '1', ':', '2', '\x7d']) (some [':']) =
      some ([':', '2', '\x7d'], PaJson.vInt 1) := rfl
  exact object_key_must_be_string.2 4 ['\x7b', '1', ':', '2', '\x7d'] []
    (by decide) (by rw [hpv]; decide)

mutual
theorem freedBy_fresh_eq : (t : RcNode) → allFreshRc t = true →
    freedBy t = nodeCount t
  | .mk rc children, h => by
    have h1 : rc = json_object_new_refcount ∧ allFreshRcList children = true := by
      simpa [allFreshRc, Bool.and_eq_true] using h
    rw [freedBy, nodeCount, h1.1]
    simp only [PA_REFCNT_DEC, json_object_new_refcount]
    norm_num
    exact freedByList_fresh_eq children h1.2
theorem freedByList_fresh_eq : (ts : RcList) → allFreshRcList ts = true →
    freedByList ts = nodeCountList ts
  | .nil, _ => rfl
  | .cons c cs, h => by
    have h1 : allFreshRc c = true ∧ allFreshRcList cs = true := by
      simpa [allFreshRcList, Bool.and_eq_true] using h
    rw [freedByList, nodeCountList, freedBy_fresh_eq c h1.1,
      freedByList_fresh_eq cs h1.2]
end

/-- Claim C2: a node from json_object_new carries reference count 1 (the
count itself is decided by the pa_xnew0 / PA_REFCNT code outside src/,
modelled from the spec), and on a tree whose every node still carries that
fresh count — the state of a fully parsed tree, since json.c never
increments a count — one pa_json_object_unref of the root frees every node,
children included, exactly once (freedBy counts each node at most once and
equals the node count). -/
theorem new_value_refcount_one_single_release_frees :
    json_object_new_refcount = 1 ∧
    (∀ t : RcNode, allFreshRc t = true → freedBy t = nodeCount t) :=
  ⟨rfl, freedBy_fresh_eq⟩

/-- Witness for C2: a two-node tree (a composite holding one child at one
reference each) is torn down with both nodes freed, 2 = 2. -/
theorem new_value_refcount_witness :
    freedBy (.mk json_object_new_refcount
      (.cons (.mk json_object_new_refcount .nil) .nil)) =
    nodeCount (.mk json_object_new_refcount
      (.cons (.mk json_object_new_refcount .nil) .nil)) :=
  new_value_refcount_one_single_release_frees.2 _ (by decide)

theorem parse_string_body_cons (c : Char) (rest acc : List Char) :
    parse_string_body (c :: rest) acc =
      (if c = '"' then some (rest, acc.reverse)
       else if c ≠ '\\' then
         if c.toNat < 32 || 126 < c.toNat then none
         else parse_string_body rest (c :: acc)
       else
         match rest with
         | [] => none
         | e :: rest2 =>
           if e = '"' ∨ e = '\\' ∨ e = '/' then parse_string_body rest2 (e :: acc)
           else if e = 'b' then parse_string_body rest2 ('\x08' :: acc)
           else if e = 'f' then parse_string_body rest2 ('\x0C' :: acc)
           else if e = 'n' then parse_string_body rest2 ('\x0A' :: acc)
           else if e = 'r' then parse_string_body rest2 ('\x0D' :: acc)
           else if e = 't' then parse_string_body rest2 ('\x09' :: acc)
           else none) := by
  rw [parse_string_body.eq_def]

theorem parse_string_body_no_quote :
    ∀ (n : Nat) (cs acc : List Char), cs.length ≤ n → '"' ∉ cs →
      parse_string_body cs acc = none := by
  intro n
  induction n with
  | zero =>
    intro cs acc hlen h
    cases cs with
    | nil => rfl
    | cons c rest => simp at hlen
  | succ n ih =>
    intro cs acc hlen h
    cases cs with
    | nil => rfl
    | cons c rest =>
      have hc : ¬(c = '"') := fun hcc => h (by simp [hcc])
      have hrest : '"' ∉ rest := fun hm => h (List.mem_cons_of_mem _ hm)
      have hlen1 : rest.length ≤ n := by
        simp only [List.length_cons] at hlen
        omega
      rw [parse_string_body_cons, if_neg hc]
      by_cases hb : c = '\\'
      · rw [if_neg (by simp [hb])]
        cases rest with
        | nil => rfl
        | cons e rest2 =>
          have hrest2 : '"' ∉ rest2 := fun hm => hrest (List.mem_cons_of_mem _ hm)
          have hlen2 : rest2.length ≤ n := by
            simp only [List.length_cons] at hlen1
            omega
          show (if e = '"' ∨ e = '\\' ∨ e = '/' then
              parse_string_body rest2 (e :: acc)
            else if e = 'b' then parse_string_body rest2 ('\x08' :: acc)
            else if e = 'f' then parse_string_body rest2 ('\x0C' :: acc)
            else if e = 'n' then parse_string_body rest2 ('\x0A' :: acc)
            else if e = 'r' then parse_string_body rest2 ('\x0D' :: acc)
            else if e = 't' then parse_string_body rest2 ('\x09' :: acc)
            else none) = none
          split
          · exact ih rest2 _ hlen2 hrest2
          · split
            · exact ih rest2 _ hlen2 hrest2
            · split
              · exact ih rest2 _ hlen2 hrest2
              · split
                · exact ih rest2 _ hlen2 hrest2
                · split
                  · exact ih rest2 _ hlen2 hrest2
                  · split
                    · exact ih rest2 _ hlen2 hrest2
                    · rfl
      · rw [if_pos hb]
        split
        · rfl
        · exact ih rest _ hlen1 hrest

/-- Claim C5: in the string production the three punctuation escapes pass
the escaped character through, the five letter escapes decode to their
control characters, the Unicode escape and every other escape character are
parse failures, any unescaped character outside printable ASCII
[0x20, 0x7E] is a parse failure, and a string whose remaining input contains
no closing quote is a parse failure. -/
theorem string_escape_and_rejection_rules :
    (∀ rest, parse_string ('"' :: '\\' :: '"' :: '"' :: rest) =
      some (rest, .vString ['"'])) ∧
    (∀ rest, parse_string ('"' :: '\\' :: '\\' :: '"' :: rest) =
      some (rest, .vString ['\\'])) ∧
    (∀ rest, parse_string ('"' :: '\\' :: '/' :: '"' :: rest) =
      some (rest, .vString ['/'])) ∧
    (∀ rest, parse_string ('"' :: '\\' :: 'b' :: '"' :: rest) =
      some (rest, .vString ['\x08'])) ∧
    (∀ rest, parse_string ('"' :: '\\' :: 'f' :: '"' :: rest) =
      some (rest, .vString ['\x0C'])) ∧
    (∀ rest, parse_string ('"' :: '\\' :: 'n' :: '"' :: rest) =
      some (rest, .vString ['\x0A'])) ∧
    (∀ rest, parse_string ('"' :: '\\' :: 'r' :: '"' :: rest) =
      some (rest, .vString ['\x0D'])) ∧
    (∀ rest, parse_string ('"' :: '\\' :: 't' :: '"' :: rest) =
      some (rest, .vString ['\x09'])) ∧
    (∀ rest, parse_string ('"' :: '\\' :: 'u' :: rest) = none) ∧
    (∀ (c : Char) (rest : List Char),
      c ∉ ['"', '\\', '/', 'b', 'f', 'n', 'r', 't'] →
      parse_string ('"' :: '\\' :: c :: rest) = none) ∧
    (∀ (c : Char) (rest : List Char), c.toNat < 32 ∨ 126 < c.toNat →
      parse_string ('"' :: c :: rest) = none) ∧
    (∀ cs : List Char, '"' ∉ cs → parse_string ('"' :: cs) = none) := by
  refine ⟨?_, ?_, ?_, ?_, ?_, ?_, ?_, ?_, ?_, ?_, ?_, ?_⟩
  · intro rest
    simp [parse_string, parse_string_body_cons, adv]
  · intro rest
    simp [parse_string, parse_string_body_cons, adv]
  · intro rest
    simp [parse_string, parse_string_body_cons, adv]
  · intro rest
    simp [parse_string, parse_string_body_cons, adv]
  · intro rest
    simp [parse_string, parse_string_body_cons, adv]
  · intro rest
    simp [parse_string, parse_string_body_cons, adv]
  · intro rest
    simp [parse_string, parse_string_body_cons, adv]
  · intro rest
    simp [parse_string, parse_string_body_cons, adv]
  · intro rest
    simp [parse_string, parse_string_body_cons, adv]
  · intro c rest hc
    simp only [List.mem_cons, List.mem_singleton, not_or] at hc
    obtain ⟨h1, h2, h3, h4, h5, h6, h7, h8⟩ := hc
    simp [parse_string, parse_string_body_cons, adv, h1, h2, h3, h4, h5, h6, h7, h8]
  · intro c rest hcr
    have h1 : ¬(c = '"') := by
      rintro rfl
      exact absurd hcr (by decide)
    have h2 : ¬(c = '\\') := by
      rintro rfl
      exact absurd hcr (by decide)
    have hbool : (c.toNat < 32 || 126 < c.toNat) = true := by
      rcases hcr with h | h <;> simp [h]
    simp [parse_string, parse_string_body_cons, adv, h1, h2, hbool]
  · intro cs hq
    have hb := parse_string_body_no_quote cs.length cs [] le_rfl hq
    simp [parse_string, adv, hb]

/-- Witness for C5: a raw tab byte (0x09) unescaped inside a string literal
is rejected. -/
theorem string_escape_rules_witness :
    parse_string ('"' :: '\x09' :: ['"']) = none :=
  string_escape_and_rejection_rules.2.2.2.2.2.2.2.2.2.2.1 '\x09' ['"'] (by decide)

/-- Claim C8: every typed getter called on a value of the wrong discriminant
returns its defensive default (0, 0, false, NULL) without any mutation (all
getters here are pure functions of the node); get_array_member is
bounds-checked, returning NULL out of range; and get_object_member returns
NULL for an absent key, which is distinguishable from a present key holding
the JSON null value (some vNull). -/
theorem getters_default_on_mismatch :
    (∀ o, pa_json_object_get_type o ≠ .INT → pa_json_object_get_int o = 0) ∧
    (∀ o, pa_json_object_get_type o ≠ .DOUBLE → pa_json_object_get_double o = 0) ∧
    (∀ o, pa_json_object_get_type o ≠ .BOOL → pa_json_object_get_bool o = false) ∧
    (∀ o, pa_json_object_get_type o ≠ .STRING → pa_json_object_get_string o = none) ∧
    (∀ o name, pa_json_object_get_type o ≠ .OBJECT →
      pa_json_object_get_object_member o name = none) ∧
    (∀ o, pa_json_object_get_type o ≠ .ARRAY →
      pa_json_object_get_array_length o = 0) ∧
    (∀ o i, pa_json_object_get_type o ≠ .ARRAY →
      pa_json_object_get_array_member o i = none) ∧
    (∀ (xs : List PaJson) (i : Nat), xs.length ≤ i →
      pa_json_object_get_array_member (.vArray xs) i = none) ∧
    (∀ (ms : List (List Char × PaJson)) (name : List Char),
      (∀ p ∈ ms, p.1 ≠ name) →
      pa_json_object_get_object_member (.vObject ms) name = none) ∧
    pa_json_object_get_object_member (.vObject [(['a'], .vNull)]) ['a'] =
      some .vNull ∧
    pa_json_object_get_object_member (.vObject [(['a'], .vNull)]) ['b'] = none := by
  refine ⟨?_, ?_, ?_, ?_, ?_, ?_, ?_, ?_, ?_, rfl, rfl⟩
  · intro o ho
    cases o <;> simp_all [pa_json_object_get_type, pa_json_object_get_int]
  · intro o ho
    cases o <;> simp_all [pa_json_object_get_type, pa_json_object_get_double]
  · intro o ho
    cases o <;> simp_all [pa_json_object_get_type, pa_json_object_get_bool]
  · intro o ho
    cases o <;> simp_all [pa_json_object_get_type, pa_json_object_get_string]
  · intro o name ho
    cases o <;> simp_all [pa_json_object_get_type, pa_json_object_get_object_member]
  · intro o ho
    cases o <;> simp_all [pa_json_object_get_type, pa_json_object_get_array_length]
  · intro o i ho
    cases o <;> simp_all [pa_json_object_get_type, pa_json_object_get_array_member]
  · intro xs i hlen
    exact List.get?_eq_none.mpr hlen
  · intro ms name hms
    induction ms with
    | nil => rfl
    | cons p rest ih =>
      have hp : ¬(p.1 = name) := hms p (by simp)
      have hi := ih fun q hq => hms q (List.mem_cons_of_mem _ hq)
      simp only [pa_json_object_get_object_member] at hi ⊢
      rcases p with ⟨k, v⟩
      simp only [pa_hashmap_get, hp, if_false, if_neg]
      exact hi

/-- Witness for C8: get_int on a Null value returns the default 0. -/
theorem getters_default_witness : pa_json_object_get_int .vNull = 0 :=
  getters_default_on_mismatch.1 .vNull (by decide)

theorem digitsToNat_eq_acc (ds : List Char) : digitsToNat ds = digitsAcc 0 ds := rfl

theorem digitsAcc_nil (a : Nat) : digitsAcc a [] = a := rfl

theorem digitsAcc_cons (a : Nat) (c : Char) (ds : List Char) :
    digitsAcc a (c :: ds) = digitsAcc (a * 10 + (c.toNat - 48)) ds := rfl

theorem le_digitsAcc : ∀ (ds : List Char) (a : Nat), a ≤ digitsAcc a ds := by
  intro ds
  induction ds with
  | nil =>
    intro a
    exact le_rfl
  | cons c ds ih =>
    intro a
    rw [digitsAcc_cons]
    calc a ≤ a * 10 + (c.toNat - 48) := by omega
    _ ≤ _ := ih _

theorem is_digit_false_of_peek {rest : List Char} {c : Char}
    (h : is_digit (peek (c :: rest)) = false) : is_digit c = false := h

theorem peek_cons (c : Char) (l : List Char) : peek (c :: l) = c := rfl

theorem peek_append (ds rest : List Char) (h : ds ≠ []) :
    peek (ds ++ rest) = peek ds := by
  cases ds with
  | nil => exact absurd rfl h
  | cons c r => rfl

theorem is_digit_toNat_le {c : Char} (h : is_digit c = true) : 48 ≤ c.toNat := by
  simp only [is_digit, Bool.and_eq_true, decide_eq_true_eq] at h
  have h2 : '0'.toNat ≤ c.toNat := h.1
  simpa using h2

theorem int_digits_append :
    ∀ (ds rest : List Char) (a : Nat), (∀ c ∈ ds, is_digit c = true) →
      is_digit (peek rest) = false → digitsAcc a ds < UINT_LIMIT →
      int_digits (ds ++ rest) a = (rest, digitsAcc a ds) := by
  intro ds
  induction ds with
  | nil =>
    intro rest a _ hrest _
    cases rest with
    | nil => rfl
    | cons c r =>
      have hc : is_digit c = false := hrest
      simp [int_digits, hc, digitsAcc]
  | cons d ds ih =>
    intro rest a hds hrest hlt
    have hd : is_digit d = true := hds d (by simp)
    have hstep : a * 10 + (d.toNat - 48) ≤ digitsAcc a (d :: ds) := by
      rw [digitsAcc_cons]
      exact le_digitsAcc ds _
    have hmod : (a * 10 + (d.toNat - 48)) % UINT_LIMIT = a * 10 + (d.toNat - 48) :=
      Nat.mod_eq_of_lt (lt_of_le_of_lt hstep hlt)
    rw [List.cons_append]
    rw [show int_digits (d :: (ds ++ rest)) a =
        int_digits (ds ++ rest) ((a * 10 + (d.toNat - 48)) % UINT_LIMIT) from by
      simp [int_digits, hd]]
    rw [hmod, digitsAcc_cons]
    exact ih rest _ (fun c hc => hds c (by simp [hc])) hrest
      (by rwa [digitsAcc_cons] at hlt)

theorem frac_digits_append :
    ∀ (ds rest : List Char) (f fd : Nat), (∀ c ∈ ds, is_digit c = true) →
      is_digit (peek rest) = false → digitsAcc f ds < UINT_LIMIT →
      fd + ds.length < UINT_LIMIT →
      frac_digits (ds ++ rest) f fd = (rest, digitsAcc f ds, fd + ds.length) := by
  intro ds
  induction ds with
  | nil =>
    intro rest f fd _ hrest _ _
    cases rest with
    | nil => simp [frac_digits, digitsAcc]
    | cons c r =>
      have hc : is_digit c = false := hrest
      simp [frac_digits, hc, digitsAcc]
  | cons d ds ih =>
    intro rest f fd hds hrest hltf hltl
    have hd : is_digit d = true := hds d (by simp)
    have hstep : f * 10 + (d.toNat - 48) ≤ digitsAcc f (d :: ds) := by
      rw [digitsAcc_cons]
      exact le_digitsAcc ds _
    have hmodf : (f * 10 + (d.toNat - 48)) % UINT_LIMIT = f * 10 + (d.toNat - 48) :=
      Nat.mod_eq_of_lt (lt_of_le_of_lt hstep hltf)
    have hlen : (d :: ds).length = ds.length + 1 := rfl
    have hmodfd : (fd + 1) % UINT_LIMIT = fd + 1 := by
      rw [hlen] at hltl
      exact Nat.mod_eq_of_lt (by omega)
    rw [List.cons_append]
    rw [show frac_digits (d :: (ds ++ rest)) f fd =
        frac_digits (ds ++ rest) ((f * 10 + (d.toNat - 48)) % UINT_LIMIT)
          ((fd + 1) % UINT_LIMIT) from by
      simp [frac_digits, hd]]
    rw [hmodf, hmodfd, digitsAcc_cons, hlen]
    rw [show fd + (ds.length + 1) = (fd + 1) + ds.length from by omega]
    exact ih rest _ _ (fun c hc => hds c (by simp [hc])) hrest
      (by rwa [digitsAcc_cons] at hltf) (by rw [hlen] at hltl; omega)

theorem exp_digits_append :
    ∀ (ds rest : List Char) (a : Nat), (∀ c ∈ ds, is_digit c = true) →
      is_digit (peek rest) = false →
      exp_digits (ds ++ rest) (a : Int) = (rest, (digitsAcc a ds : Int)) := by
  intro ds
  induction ds with
  | nil =>
    intro rest a _ hrest
    cases rest with
    | nil => simp [exp_digits, digitsAcc]
    | cons c r =>
      have hc : is_digit c = false := hrest
      simp [exp_digits, hc, digitsAcc]
  | cons d ds ih =>
    intro rest a hds hrest
    have hd : is_digit d = true := hds d (by simp)
    rw [List.cons_append]
    rw [show exp_digits (d :: (ds ++ rest)) (a : Int) =
        exp_digits (ds ++ rest) ((a : Int) * 10 + ((d.toNat : Int) - 48)) from by
      simp [exp_digits, hd]]
    have h48 : 48 ≤ d.toNat := is_digit_toNat_le hd
    have hcast : (a : Int) * 10 + ((d.toNat : Int) - 48) =
        ((a * 10 + (d.toNat - 48) : Nat) : Int) := by
      push_cast [h48]
      ring
    rw [hcast, digitsAcc_cons]
    exact ih rest _ (fun c hc => hds c (by simp [hc])) hrest

theorem int_value_of_small (neg : Bool) (n : Nat) (h : n < 2147483648) :
    int_value_of neg n = (if neg then -1 else 1) * (n : Int) := by
  cases neg
  · simp only [int_value_of, uintToInt, if_pos h, Bool.false_eq_true, if_false]
    ring
  · by_cases h0 : n = 0
    · subst h0
      simp [int_value_of, uintToInt, UINT_LIMIT]
    · have hlt : UINT_LIMIT - n < UINT_LIMIT := by
        simp only [UINT_LIMIT]
        omega
      have h1 : (UINT_LIMIT - n) % UINT_LIMIT = UINT_LIMIT - n := Nat.mod_eq_of_lt hlt
      have h2 : ¬(UINT_LIMIT - n < 2147483648) := by
        simp only [UINT_LIMIT]
        omega
      simp only [int_value_of, if_pos rfl, if_true, h1, uintToInt, h2, if_false]
      have h3 : ((UINT_LIMIT - n : Nat) : Int) = (UINT_LIMIT : Nat) - (n : Int) := by
        have : n ≤ UINT_LIMIT := by
          simp only [UINT_LIMIT]
          omega
        push_cast [this]
        ring
      rw [h3]
      ring

theorem number_sign_eq (neg : Bool) (L : List Char) (h : peek L ≠ '-') :
    number_sign ((if neg then ['-'] else []) ++ L) = (neg, L) := by
  cases neg
  · simp [number_sign, h]
  · simp [number_sign, peek, adv]

theorem number_integer_single_zero (rest : List Char) :
    number_integer ('0' :: rest) = (rest, 0) := by
  simp [number_integer, peek, adv]

theorem number_integer_run (ds rest : List Char) (hne : ds ≠ [])
    (hds : ∀ c ∈ ds, is_digit c = true) (h0 : peek ds ≠ '0')
    (hrest : is_digit (peek rest) = false)
    (hlt : digitsToNat ds < UINT_LIMIT) :
    number_integer (ds ++ rest) = (rest, digitsToNat ds) := by
  have hp : peek (ds ++ rest) = peek ds := peek_append ds rest hne
  rw [number_integer, if_neg (by rw [hp]; exact h0)]
  rw [digitsToNat_eq_acc] at hlt ⊢
  exact int_digits_append ds rest 0 hds hrest hlt

theorem number_fraction_none (s : List Char) (h : peek s ≠ '.') :
    number_fraction s = (s, 0, 0, false) := by
  rw [number_fraction, if_neg h]

theorem number_fraction_some (ds rest : List Char)
    (hds : ∀ c ∈ ds, is_digit c = true)
    (hrest : is_digit (peek rest) = false)
    (hv : digitsToNat ds < UINT_LIMIT) (hl : ds.length < UINT_LIMIT) :
    number_fraction ('.' :: (ds ++ rest)) =
      (rest, digitsToNat ds, ds.length, true) := by
  have hfd := frac_digits_append ds rest 0 0 hds hrest
    (by rwa [digitsToNat_eq_acc] at hv) (by omega)
  simp [number_fraction, peek, adv, hfd, digitsToNat_eq_acc]

theorem number_exponent_none (s : List Char) (h1 : peek s ≠ 'e')
    (h2 : peek s ≠ 'E') :
    number_exponent s = (s, 0, false) := by
  rw [number_exponent, if_neg (by simp [h1, h2])]

theorem number_exponent_some (eneg : Bool) (ds : List Char)
    (hne : ds ≠ []) (hds : ∀ c ∈ ds, is_digit c = true) :
    number_exponent ('e' :: ((if eneg then ['-'] else []) ++ ds)) =
      ([], (if eneg then -1 else 1) * (digitsToNat ds : Int), true) := by
  have hexp := exp_digits_append ds [] 0 hds (by decide)
  rw [List.append_nil, Nat.cast_zero] at hexp
  rw [digitsToNat_eq_acc]
  cases eneg
  · have hd : is_digit (peek ds) = true := by
      cases ds with
      | nil => exact absurd rfl hne
      | cons c r => exact hds c (by simp)
    have hne1 : ¬(peek ds = '-') := by
      intro hc
      rw [hc] at hd
      exact absurd hd (by decide)
    have hne2 : ¬(peek ds = '+') := by
      intro hc
      rw [hc] at hd
      exact absurd hd (by decide)
    rw [show ('e' :: ((if false then ['-'] else []) ++ ds) : List Char) =
      'e' :: ds from by simp]
    simp only [number_exponent]
    rw [show peek ('e' :: ds) = 'e' from rfl]
    rw [show adv ('e' :: ds) = ds from rfl]
    rw [if_neg hne1, if_neg hne2]
    simp [hexp]
  · rw [show ('e' :: ((if true then ['-'] else []) ++ ds) : List Char) =
      'e' :: '-' :: ds from by simp]
    simp only [number_exponent]
    rw [show peek ('e' :: '-' :: ds) = 'e' from rfl]
    rw [show adv ('e' :: '-' :: ds) = '-' :: ds from rfl]
    rw [show peek ('-' :: ds) = '-' from rfl]
    rw [show adv ('-' :: ds) = ds from rfl]
    simp [hexp]

/-- Claim C4: for a well-formed number literal the parsed value is an Int
equal to sign times the integer-part value when neither fraction nor
exponent is present, and otherwise a Double equal to
sign * (integer + fraction / 10 ^ fraction_digit_count) * 10 ^ exponent
(doubles modelled as exact rationals; the claim's concrete instances use
only values on which C double arithmetic is exact); concretely "-0.5e2"
parses as a Double equal to -50, "42" as an Int equal to 42, and "3.0" as a
Double (not an Int) equal to 3. -/
theorem number_literal_semantics :
    (∀ (neg : Bool) (intD : List Char) (fracD : Option (List Char))
        (expD : Option (Bool × List Char)),
      (intD = ['0'] ∨ (intD ≠ [] ∧ (∀ c ∈ intD, is_digit c = true) ∧
        peek intD ≠ '0')) →
      digitsToNat intD < 2147483648 →
      (match fracD with
       | none => True
       | some ds => (∀ c ∈ ds, is_digit c = true) ∧
           digitsToNat ds < UINT_LIMIT ∧ ds.length < UINT_LIMIT) →
      (match expD with
       | none => True
       | some p => p.2 ≠ [] ∧ ∀ c ∈ p.2, is_digit c = true) →
      parse_number (numberLiteral neg intD fracD expD) =
        ([],
          if fracD = none ∧ expD = none then
            .vInt ((if neg then -1 else 1) * (digitsToNat intD : Int))
          else
            .vDouble ((if neg then -1 else 1) *
              ((digitsToNat intD : Rat) +
                (fracValOf fracD : Rat) / 10 ^ fracLenOf fracD) *
              10 ^ expValOf expD))) ∧
    pa_json_parse "-0.5e2".toList = some (.vDouble (-50)) ∧
    pa_json_parse "42".toList = some (.vInt 42) ∧
    pa_json_parse "3.0".toList = some (.vDouble 3) := by
  refine ⟨?_, ?_, rfl, ?_⟩
  · intro neg intD fracD expD hint hsmall hfrac hexp
    have hIne : intD ≠ [] := by
      rcases hint with h | h
      · rw [h]
        simp
      · exact h.1
    have hpeekd : peek intD = '0' ∨ is_digit (peek intD) = true := by
      rcases hint with h | ⟨hne, hds, h0⟩
      · left
        rw [h]
        rfl
      · right
        cases intD with
        | nil => exact absurd rfl hne
        | cons c r => exact hds c (by simp)
    have hpeek_ne : peek intD ≠ '-' := by
      rcases hpeekd with h | h
      · rw [h]
        decide
      · intro hc
        rw [hc] at h
        exact absurd h (by decide)
    have hintlt : digitsToNat intD < UINT_LIMIT := by
      have : (2147483648 : Nat) < UINT_LIMIT := by
        simp [UINT_LIMIT]
      omega
    have hint2 : ∀ rest : List Char, is_digit (peek rest) = false →
        number_integer (intD ++ rest) = (rest, digitsToNat intD) := by
      intro rest hrest
      rcases hint with h | ⟨hne, hds, h0⟩
      · rw [h]
        rw [show (['0'] ++ rest : List Char) = '0' :: rest from rfl]
        rw [number_integer_single_zero]
        rw [show digitsToNat ['0'] = 0 from rfl]
      · exact number_integer_run intD rest hne hds h0 hrest hintlt
    rcases fracD with - | fds <;> rcases expD with - | ⟨eneg, eds⟩
    · -- no fraction, no exponent
      have hL : numberLiteral neg intD none none =
          (if neg then ['-'] else []) ++ intD := by
        simp [numberLiteral]
      have hB : number_integer (intD ++ []) = ([], digitsToNat intD) :=
        hint2 [] (by decide)
      rw [List.append_nil] at hB
      have hp : parse_number ((if neg then ['-'] else []) ++ intD) =
          ([], .vInt (int_value_of neg (digitsToNat intD))) := by
        simp only [parse_number.eq_def, number_sign_eq neg intD hpeek_ne, hB,
          number_fraction_none [] (by decide), number_exponent_none [] (by decide) (by decide)]
        simp
      rw [hL, hp]
      simp [int_value_of_small neg _ hsmall]
    · -- no fraction, exponent present
      obtain ⟨hene, heds⟩ := hexp
      have hL : numberLiteral neg intD none (some (eneg, eds)) =
          (if neg then ['-'] else []) ++
            (intD ++ ('e' :: ((if eneg then ['-'] else []) ++ eds))) := by
        simp [numberLiteral]
      have hB : number_integer (intD ++ ('e' :: ((if eneg then ['-'] else []) ++ eds))) =
          ('e' :: ((if eneg then ['-'] else []) ++ eds), digitsToNat intD) :=
        hint2 _ (by rw [peek_cons]; decide)
      have hC : number_fraction ('e' :: ((if eneg then ['-'] else []) ++ eds)) =
          ('e' :: ((if eneg then ['-'] else []) ++ eds), 0, 0, false) :=
        number_fraction_none _ (by rw [peek_cons]; decide)
      have hD := number_exponent_some eneg eds hene heds
      have hpeekL : peek (intD ++ ('e' :: ((if eneg then ['-'] else []) ++ eds))) ≠ '-' := by
        rw [peek_append _ _ hIne]
        exact hpeek_ne
      have hp : parse_number ((if neg then ['-'] else []) ++
          (intD ++ ('e' :: ((if eneg then ['-'] else []) ++ eds)))) =
          ([], .vDouble (double_value_of neg (digitsToNat intD) 0 0
            ((if eneg then -1 else 1) * (digitsToNat eds : Int)))) := by
        simp only [parse_number.eq_def, number_sign_eq neg _ hpeekL, hB, hC, hD]
        simp
      rw [hL, hp]
      simp [double_value_of, fracValOf, fracLenOf, expValOf]
    · -- fraction present, no exponent
      obtain ⟨hfds, hflt, hfll⟩ := hfrac
      have hL : numberLiteral neg intD (some fds) none =
          (if neg then ['-'] else []) ++ (intD ++ ('.' :: fds)) := by
        simp [numberLiteral]
      have hB : number_integer (intD ++ ('.' :: fds)) =
          ('.' :: fds, digitsToNat intD) :=
        hint2 _ (by rw [peek_cons]; decide)
      have hC : number_fraction ('.' :: fds) =
          ([], digitsToNat fds, fds.length, true) := by
        have := number_fraction_some fds [] hfds (by decide) hflt hfll
        rwa [List.append_nil] at this
      have hD : number_exponent ([] : List Char) = ([], 0, false) :=
        number_exponent_none [] (by decide) (by decide)
      have hpeekL : peek (intD ++ ('.' :: fds)) ≠ '-' := by
        rw [peek_append _ _ hIne]
        exact hpeek_ne
      have hp : parse_number ((if neg then ['-'] else []) ++ (intD ++ ('.' :: fds))) =
          ([], .vDouble (double_value_of neg (digitsToNat intD)
            (digitsToNat fds) fds.length 0)) := by
        simp only [parse_number.eq_def, number_sign_eq neg _ hpeekL, hB, hC, hD]
        simp
      rw [hL, hp]
      simp [double_value_of, fracValOf, fracLenOf, expValOf]
    · -- fraction and exponent present
      obtain ⟨hfds, hflt, hfll⟩ := hfrac
      obtain ⟨hene, heds⟩ := hexp
      have hL : numberLiteral neg intD (some fds) (some (eneg, eds)) =
          (if neg then ['-'] else []) ++
            (intD ++ ('.' :: (fds ++ ('e' :: ((if eneg then ['-'] else []) ++ eds))))) := by
        simp [numberLiteral]
      have hB : number_integer
          (intD ++ ('.' :: (fds ++ ('e' :: ((if eneg then ['-'] else []) ++ eds))))) =
          ('.' :: (fds ++ ('e' :: ((if eneg then ['-'] else []) ++ eds))),
            digitsToNat intD) :=
        hint2 _ (by rw [peek_cons]; decide)
      have hC : number_fraction
          ('.' :: (fds ++ ('e' :: ((if eneg then ['-'] else []) ++ eds)))) =
          ('e' :: ((if eneg then ['-'] else []) ++ eds),
            digitsToNat fds, fds.length, true) :=
        number_fraction_some fds _ hfds (by rw [peek_cons]; decide) hflt hfll
      have hD := number_exponent_some eneg eds hene heds
      have hpeekL : peek
          (intD ++ ('.' :: (fds ++ ('e' :: ((if eneg then ['-'] else []) ++ eds))))) ≠ '-' := by
        rw [peek_append _ _ hIne]
        exact hpeek_ne
      have hp : parse_number ((if neg then ['-'] else []) ++
          (intD ++ ('.' :: (fds ++ ('e' :: ((if eneg then ['-'] else []) ++ eds)))))) =
          ([], .vDouble (double_value_of neg (digitsToNat intD)
            (digitsToNat fds) fds.length
            ((if eneg then -1 else 1) * (digitsToNat eds : Int)))) := by
        simp only [parse_number.eq_def, number_sign_eq neg _ hpeekL, hB, hC, hD]
        simp
      rw [hL, hp]
      simp [double_value_of, fracValOf, fracLenOf, expValOf]
  · have h : pa_json_parse "-0.5e2".toList =
        some (.vDouble (double_value_of true 0 5 1 2)) := rfl
    rw [h]
    norm_num [double_value_of]
  · have h : pa_json_parse "3.0".toList =
        some (.vDouble (double_value_of false 3 0 1 0)) := rfl
    rw [h]
    norm_num [double_value_of]

/-- Witness for C4: the literal assembled from a minus sign, the single
digit 0, the fraction digit 5 and the exponent digit 2 (the characters of
"-0.5e2") parses to the Double sign * (0 + 5/10) * 10^2 = -50. -/
theorem number_literal_semantics_witness :
    parse_number (numberLiteral true ['0'] (some ['5']) (some (false, ['2']))) =
      ([], .vDouble (-50)) := by
  have h := number_literal_semantics.1 true ['0'] (some ['5']) (some (false, ['2']))
    (Or.inl rfl) (by decide) ⟨by decide, by decide, by decide⟩ ⟨by decide, by decide⟩
  rw [h]
  rw [show digitsToNat ['0'] = 0 from rfl]
  rw [show fracValOf (some ['5']) = 5 from rfl]
  rw [show fracLenOf (some ['5']) = 1 from rfl]
  rw [show expValOf (some (false, ['2'])) = 2 from rfl]
  norm_num
  exact fun hcon => absurd hcon (Option.some_ne_none _)

end PulseJson
